import Mathlib

/-!
Verification development for the Sator-square generator (`sator.py`).

Strings are modelled as `List Char` (one entry per Unicode code point, matching
Python `str` indexing).  Word objects are held in a store (`List WordData`)
and referenced by their creation index, which models Python object references
faithfully even in the presence of the mutual `inverted` relation (which may
be cyclic, e.g. a palindrome is its own partner).
-/

set_option maxRecDepth 4000

/-- Embedding of `deaccent`'s replacement table, in source order:
`[('á','a'), ('é','e'), ('í','i'), ('ó','o'), ('ú','u'), ('ü','u'), ('î','i'), ('ö','o'), ('Á','a')]`. -/
def accPairs : List (Char × Char) :=
  [('á', 'a'), ('é', 'e'), ('í', 'i'), ('ó', 'o'), ('ú', 'u'),
   ('ü', 'u'), ('î', 'i'), ('ö', 'o'), ('Á', 'a')]

/-- Python `word.replace(x, y)` for single-character `x`, `y`: a character map. -/
def replaceChar (x y : Char) (w : List Char) : List Char :=
  w.map (fun c => if c = x then y else c)

/-- Embedding of `deaccent`: the successive `str.replace` calls over `accPairs`. -/
def deaccent (w : List Char) : List Char :=
  accPairs.foldl (fun acc p => replaceChar p.1 p.2 acc) w

/-- Embedding of `invert`: `"".join(reversed(word))`. -/
def invert (w : List Char) : List Char := w.reverse

/-- Single-character simultaneous version of the replacement table
(the targets of the nine replacements are never themselves replaced later,
so the sequential passes agree with one simultaneous map). -/
def dchar (c : Char) : Char :=
  if c = 'á' then 'a' else if c = 'é' then 'e' else if c = 'í' then 'i'
  else if c = 'ó' then 'o' else if c = 'ú' then 'u' else if c = 'ü' then 'u'
  else if c = 'î' then 'i' else if c = 'ö' then 'o' else if c = 'Á' then 'a'
  else c

/-- The nine accented characters handled by `deaccent`. -/
def accentedChars : List Char := accPairs.map (·.1)


/-! ## Word objects and the word list (`Word`, `DictStorage`, `WordsList`) -/

/-- Data of one Python `Word` object: `original`, `deaccented`, and the
`inverted` reference (`None` or a reference to another `Word`), modelled as the
index of the referenced word in the creation-ordered store. -/
structure WordData where
  original : List Char
  deaccented : List Char
  inverted : Option Nat
deriving DecidableEq, Repr

/-- Placeholder for out-of-range store lookups (a pure encoding artifact:
Python dereferences object pointers, which cannot dangle). -/
def defaultWord : WordData := ⟨[], [], none⟩

/-- State of a `WordsList`: the store of all created `Word` objects (`store`),
the `DictStorage` mapping deaccented form to the word (`byKey`, insertion
ordered, value overwritten in place on key collision), and the
letter-and-position index `l_and_p` mapping `(letter, position)` to the set of
deaccented forms (modelled as an insertion-ordered duplicate-free list). -/
structure WordsListM where
  lengthArg : Option Nat
  store : List WordData
  byKey : List (List Char × Nat)
  lAndP : List ((Char × Nat) × List (List Char))
deriving DecidableEq, Repr

/-- Lookup in an insertion-ordered association list (first matching key). -/
def assocGet {α β : Type} [DecidableEq α] (k : α) : List (α × β) → Option β
  | [] => none
  | (k₁, v) :: rest => if k₁ = k then some v else assocGet k rest

/-- Lookup with default (`dict.get(item, default)`). -/
def assocGetD {α β : Type} [DecidableEq α] (k : α) (l : List (α × β)) (d : β) : β :=
  (assocGet k l).getD d

/-- Update in an insertion-ordered association list: replaces the value in
place if the key exists (keeping its position, like a Python `dict`), else
appends the new pair. -/
def assocSet {α β : Type} [DecidableEq α] (k : α) (v : β) : List (α × β) → List (α × β)
  | [] => [(k, v)]
  | (k₁, v₁) :: rest => if k₁ = k then (k₁, v) :: rest else (k₁, v₁) :: assocSet k v rest

/-- Store lookup through a word reference. -/
def getW (wl : WordsListM) (i : Nat) : WordData := wl.store.getD i defaultWord

/-- Patches the `inverted` field of the word at index `i`. -/
def setInvAt (s : List WordData) (i j : Nat) : List WordData :=
  s.set i { s.getD i defaultWord with inverted := some j }

/-- Embedding of `WordsList.register_word_letter_and_position`: for every
`(pos, letter)` of the word's deaccented form, add the deaccented form to the
set at key `(letter, pos)` (creating the set if absent).  Python iterates a
`set`; we keep its elements in insertion order, which is all the proofs rely
on up to list membership. -/
def registerWord (d : List Char) (m : List ((Char × Nat) × List (List Char))) :
    List ((Char × Nat) × List (List Char)) :=
  d.enum.foldl
    (fun acc pl =>
      let key := (pl.2, pl.1)
      let items := assocGetD key acc []
      if d ∈ items then acc else assocSet key (items ++ [d]) acc)
    m

/-- Partner assignment of one `WordsList.setup` iteration: look up the
reversed deaccented form of the newly created word `i` and, if a word `j` was
found and is truthy (`if inverted:` — a non-empty word), assign
`word.inverted = inverted`, whose descriptor `__set__` also back-assigns
`inverted.inverted = word` when that slot is still `None`. -/
def setupPatch (store₁ : List WordData) (byKey₁ : List (List Char × Nat))
    (d : List Char) (i : Nat) : List WordData :=
  match assocGet (invert d) byKey₁ with
  | none => store₁
  | some j =>
    if (store₁.getD j defaultWord).deaccented = [] then store₁
    else
      let s := setInvAt store₁ i j
      if (s.getD j defaultWord).inverted = none then setInvAt s j i else s

/-- One iteration of the loop in `WordsList.setup` for the raw string `raw`:
create the `Word` (whose `__init__` self-assigns `inverted` when the
deaccented form is a palindrome), store it under its deaccented form
(overwriting any previous word with the same key), index its letters, then run
the partner assignment `setupPatch`. -/
def setupStep (wl : WordsListM) (raw : List Char) : WordsListM :=
  let d := deaccent raw
  let i := wl.store.length
  let wd : WordData := ⟨raw, d, if d = invert d then some i else none⟩
  ⟨wl.lengthArg,
   setupPatch (wl.store ++ [wd]) (assocSet d i wl.byKey) d i,
   assocSet d i wl.byKey,
   registerWord d wl.lAndP⟩

/-- Python string `<` (lexicographic comparison of code points). -/
def pyStrLt : List Char → List Char → Bool
  | [], [] => false
  | [], _ :: _ => true
  | _ :: _, [] => false
  | c₁ :: r₁, c₂ :: r₂ => if c₁ = c₂ then pyStrLt r₁ r₂ else decide (c₁ < c₂)

/-- Insertion into a list sorted by `pyStrLt` (stable). -/
def insertSorted (w : List Char) : List (List Char) → List (List Char)
  | [] => [w]
  | v :: rest => if pyStrLt w v then w :: v :: rest else v :: insertSorted w rest

/-- Embedding of Python `sorted` on a list of strings. -/
def pySorted (l : List (List Char)) : List (List Char) :=
  l.foldr insertSorted []

/-- Embedding of the filter in `WordsList.__init__`:
`[w for w in sorted(words) if not length or len(w) == length]`.
Note `not length` is a truthiness test: both `None` and `0` disable the
filter. -/
def wordsOfLengthFilter (lengthArg : Option Nat) (raws : List (List Char)) : List (List Char) :=
  (pySorted raws).filter fun w =>
    match lengthArg with
    | none => true
    | some L => L = 0 || w.length = L

/-- Embedding of `WordsList.__init__` followed by `setup`. -/
def mkWordsList (raws : List (List Char)) (lengthArg : Option Nat) : WordsListM :=
  (wordsOfLengthFilter lengthArg raws).foldl setupStep ⟨lengthArg, [], [], []⟩

/-- The length filter test `if length and len(item) != length` (a skip when
the length argument is truthy and the candidate form's length differs). -/
def lengthSkip (lengthArg : Option Nat) (item : List Char) : Bool :=
  match lengthArg with
  | none => false
  | some L => !(L = 0) && !(item.length = L)

/-- Embedding of `WordsList.word_for_letters_in_position`, inner loop over the
indexed deaccented forms `items`.  `none` models a raised exception: the only
exception possible here is an `AttributeError` on `candidate.deaccented` when
the positional index holds a form absent from the primary map (never the case
for a set-up `WordsList`).  A yielded candidate must survive the optional
length filter (`if length and len(item) != length`) and the confirmation
re-check of the full pattern against `normalized[position : position + len(letters)]`. -/
def wflAux (wl : WordsListM) (letters : List Char) (position : Nat) (lengthArg : Option Nat) :
    List (List Char) → Option (List Nat)
  | [] => some []
  | item :: rest =>
    if lengthSkip lengthArg item then wflAux wl letters position lengthArg rest
    else
      match assocGet item wl.byKey with
      | none => none
      | some ci =>
        if ((getW wl ci).deaccented.drop position).take letters.length = letters then
          (wflAux wl letters position lengthArg rest).map (ci :: ·)
        else wflAux wl letters position lengthArg rest

/-- Embedding of `WordsList.word_for_letters_in_position` (as the list of
yielded words, in order).  `none` models a raised exception; in particular the
unconditional access `letters[0]` raises `IndexError` on an empty pattern. -/
def wordForLettersInPosition (wl : WordsListM) (letters : List Char) (position : Nat)
    (lengthArg : Option Nat) : Option (List Nat) :=
  match letters with
  | [] => none
  | l₀ :: _ => wflAux wl letters position lengthArg (assocGetD (l₀, position) wl.lAndP [])

/-- Embedding of `WordsList.iter_for_length`: iterate the primary map in
insertion order (`iter(self.content.values())`), keeping words of the given
length whose `inverted` is not `None` (an identity test, not a truthiness
test). -/
def iterForLength (wl : WordsListM) (length : Nat) : List Nat :=
  (wl.byKey.map (·.2)).filter fun i =>
    (getW wl i).deaccented.length = length && ((getW wl i).inverted).isSome

/-! ## The grid (`Sator`) -/

/-- State of a `Sator` grid: the fixed side `length` and the `content` list of
optional word references, one per row. -/
structure SatorG where
  length : Nat
  content : List (Option Nat)
deriving DecidableEq, Repr

/-- Embedding of `Sator(length)`: all slots `None`. -/
def emptySator (length : Nat) : SatorG :=
  ⟨length, List.replicate length none⟩

/-- Embedding of `Sator.__setitem__`: `assert word.inverted` (a truthiness
test: it fails both when `inverted` is `None` and when the partner word is
empty, since `Word.__len__` makes an empty word falsy), then
`content[pos] = word`, and unless `2 * pos + 1 == length` also
`content[length - pos - 1] = word.inverted`.  `none` models a raised
`AssertionError` or `IndexError`. -/
def satorSetItem (wl : WordsListM) (g : SatorG) (pos : Nat) (w : Nat) : Option SatorG :=
  match (getW wl w).inverted with
  | none => none
  | some j =>
    if (getW wl j).deaccented = [] then none
    else if pos < g.content.length then
      let c₁ := g.content.set pos (some w)
      if 2 * pos + 1 ≠ g.length then
        if g.length - pos - 1 < c₁.length then
          some { g with content := c₁.set (g.length - pos - 1) (some j) }
        else none
      else some { g with content := c₁ }
    else none

/-- Embedding of `Sator.copy_with_word_in_pos` (copy-on-write placement). -/
def copyWithWordInPos (wl : WordsListM) (g : SatorG) (w : Nat) (pos : Nat) : Option SatorG :=
  satorSetItem wl g pos w

/-- The words a grid hash sees: `[w for w in self.content if w]` — the slot
must be non-`None` and the word truthy (non-empty). -/
def satorTruthyWords (wl : WordsListM) (g : SatorG) : List Nat :=
  (g.content.filterMap id).filter fun i => !((getW wl i).deaccented.isEmpty)

/-- Embedding of the content key hashed by `Sator.__hash__`:
`tuple(sorted([w for w in self.content if w]))`, where `sorted` compares words
by `Word.__lt__`, i.e. by their original strings.  Two grids are equal under
the data model's grid content equality exactly when their keys agree. -/
def satorHashKey (wl : WordsListM) (g : SatorG) : List (List Char) :=
  pySorted ((satorTruthyWords wl g).map fun i => (getW wl i).original)

/-! ## The search engine (`Satorter`) -/

/-- Embedding of `Satorter.middle_pos`: `(self.length + 1) // 2 - 1`. -/
def middlePos (length : Nat) : Nat := (length + 1) / 2 - 1

/-- Truthiness of `running_word.inverted` as tested by
`if not running_word.inverted: continue`: the partner must exist and be a
non-empty word. -/
def truthyInverted (wl : WordsListM) (u : Nat) : Bool :=
  match (getW wl u).inverted with
  | none => false
  | some j => !((getW wl j).deaccented.isEmpty)

/-- Sequences the recursive explorations of the candidate words at one ring,
concatenating their yields in order; `none` (an exception inside one
exploration) aborts the whole sequence, as it would propagate out of the
`for` loop. -/
def seqExplore (f : Nat → Option (List SatorG)) : List Nat → Option (List SatorG)
  | [] => some []
  | u :: rest => do
    let a ← f u
    let b ← seqExplore f rest
    pure (a ++ b)

/-- Joins the letter at index `pos - 1` of each listed row, in order
(`"".join(w.deaccented[pos-1] for w in ...)`); `none` models an
`AttributeError` (a `None` slot) or an `IndexError` (a word shorter than
`pos`). -/
def joinLettersAt (wl : WordsListM) (pos : Nat) : List (Option Nat) → Option (List Char)
  | [] => some []
  | none :: _ => none
  | some i :: rest =>
    match (getW wl i).deaccented.get? (pos - 1) with
    | none => none
    | some c => (joinLettersAt wl pos rest).map (c :: ·)

/-- Computes `required`, the letter pattern for the next inner ring:
`"".join(w.deaccented[pos-1] for w in new_sator[pos:self.length - pos])`. -/
def requiredPattern (wl : WordsListM) (g : SatorG) (length pos : Nat) : Option (List Char) :=
  joinLettersAt wl pos ((g.content.drop pos).take (length - pos - pos))

/-- Embedding of `Satorter.iter_sator_for_central` (the list of yielded grids,
in yield order; `none` models an exception escaping the generator).  The
running word's partner is placed at `pos` (mirroring per `__setitem__`); at
`pos == 0` the accumulator is yielded unconditionally; otherwise the candidate
words matching `required` at `pos` are explored recursively at `pos - 1`, and
if none of them had a truthy partner (`no_words`), the incomplete accumulator
is yielded exactly when `near_miss >= pos`. -/
def iterSatorForCentral (wl : WordsListM) (length nearMiss : Nat) :
    Nat → Nat → SatorG → Option (List SatorG)
  | 0, r, sator =>
    match (getW wl r).inverted with
    | none => none
    | some ri =>
      match copyWithWordInPos wl sator ri 0 with
      | none => none
      | some newSator => some [newSator]
  | p + 1, r, sator =>
    match (getW wl r).inverted with
    | none => none
    | some ri =>
      match copyWithWordInPos wl sator ri (p + 1) with
      | none => none
      | some newSator => do
        let required ← requiredPattern wl newSator length (p + 1)
        let cands ← wordForLettersInPosition wl required (p + 1) (some length)
        let keep := cands.filter (truthyInverted wl)
        let results ← seqExplore (fun u => iterSatorForCentral wl length nearMiss p u newSator) keep
        if keep.isEmpty && nearMiss ≥ p + 1 then pure (results ++ [newSator])
        else pure results

/-- Seed words enumerated by `Satorter.generator`: the words of the target
length with a non-`None` partner, also skipping, when the length is odd, the
words that are not self-symmetrical. -/
def generatorSeeds (wl : WordsListM) (length : Nat) : List Nat :=
  (iterForLength wl length).filter fun r =>
    !(length % 2 ≠ 0 && !((getW wl r).deaccented = invert ((getW wl r).deaccented) : Bool))

/-- Runs `iter_sator_for_central` for each seed in turn, concatenating the
yields.  The source's `results` set never suppresses a yield: `Sator` defines
`__hash__` but not `__eq__`, so `result in self.results` compares distinct
objects by identity and is always false for the fresh grids the search
builds — the dedup bookkeeping is observable-behavior-free and is therefore
not represented.  `none` models an exception escaping `generator` (see
`generatorOnSeedOutcomes` for the fate of an exception inside the `try`). -/
def generatorRun (wl : WordsListM) (length nearMiss : Nat) : List Nat → Option (List SatorG)
  | [] => some []
  | s :: rest => do
    let a ← iterSatorForCentral wl length nearMiss (middlePos length) s (emptySator length)
    let b ← generatorRun wl length nearMiss rest
    pure (a ++ b)

/-- Embedding of `Satorter.generator` over a words list (near-miss tolerance
`nearMiss`, target side `length`). -/
def generatorM (wl : WordsListM) (length nearMiss : Nat) : Option (List SatorG) :=
  generatorRun wl length nearMiss (generatorSeeds wl length)

/-! ## Derived observations used in the claims -/

/-- Convenience conversion from a string literal to its character list. -/
def strChars (s : String) : List Char := s.data

/-- All slots of the grid are non-null. -/
def allSlotsFilled (g : SatorG) : Bool := g.content.all (·.isSome)

/-- The deaccented form of the word in row `k` (empty for a `None` slot). -/
def rowDeacc (wl : WordsListM) (g : SatorG) (k : Nat) : List Char :=
  match g.content.getD k none with
  | some i => (getW wl i).deaccented
  | none => []

/-- The string read down column `p`: the letter at index `p` of each row, top
to bottom (`none` when a slot is `None` or a word is too short). -/
def colString (wl : WordsListM) (g : SatorG) (p : Nat) : Option (List Char) :=
  g.content.mapM fun ow => do
    let i ← ow
    (getW wl i).deaccented.get? p

/-- The defining Sator symmetry claimed of exact grids: for every `pos`,
column `pos` read top to bottom equals the normalized form of row `pos`. -/
def columnsEqualRows (wl : WordsListM) (g : SatorG) : Bool :=
  (List.range g.length).all fun p => colString wl g p == some (rowDeacc wl g p)

/-- The mirror-placement symmetry: for every `pos`, the word in row
`length - 1 - pos` is the character-reversal (of the normalized form) of the
word in row `pos`. -/
def mirrorRows (wl : WordsListM) (g : SatorG) : Prop :=
  ∀ k i, g.content[k]? = some (some i) →
    ∃ j, g.content[g.length - 1 - k]? = some (some j) ∧
      (getW wl j).deaccented = invert ((getW wl i).deaccented)

/-- Embedding of the `try`/`except` seed loop of `Satorter.generator`, with
each seed's exploration abstracted by its outcome (the grids it yields, or the
exception it raises).  The `except Exception` handler prints the traceback and
then evaluates `print("Sator when error: \n", sator)` — but no name `sator` is
bound in `generator`'s scope (it is neither a local nor, on import, a module
global; the in-progress grid is a local of `iter_sator_for_central`), so the
second print raises `NameError`, which propagates to the caller and ends the
enumeration. -/
def generatorOnSeedOutcomes : List (Except String (List SatorG)) → Except String (List SatorG)
  | [] => Except.ok []
  | Except.ok gs :: rest =>
    match generatorOnSeedOutcomes rest with
    | Except.ok acc => Except.ok (gs ++ acc)
    | Except.error e => Except.error e
  | Except.error _ :: _ => Except.error "NameError: name sator is not defined"

/-- The two-word list `["ab", "ba"]` (target length 2). -/
def wlAB : WordsListM := mkWordsList [strChars "ab", strChars "ba"] (some 2)

/-- The classical five-word list at target length 5. -/
def wlSator : WordsListM :=
  mkWordsList
    [strChars "sator", strChars "arepo", strChars "tenet", strChars "opera", strChars "rotas"]
    (some 5)

/-- The single-word list `["abba"]` (target length 4). -/
def wlAbba : WordsListM := mkWordsList [strChars "abba"] (some 4)

/-- A words list built from the single empty string. -/
def wlEmpty : WordsListM := mkWordsList [[]] none

/-- Invariants of a set-up `WordsList` state, established by construction and
relied on by the search engine:

* `byKey_mem`: every entry of the primary map references a stored word whose
  deaccented form is the entry's key;
* `lAndP_mem`: every deaccented form indexed in `l_and_p` is a key of the
  primary map;
* `inv_def`: a word's `inverted`, when set, references a stored word whose
  deaccented form is the character-reversal of its own;
* `inv_set`: the partner of a word with a set partner has its own partner
  set (the descriptor always back-fills). -/
structure WLInv (wl : WordsListM) : Prop where
  byKey_mem : ∀ p ∈ wl.byKey, p.2 < wl.store.length ∧ (getW wl p.2).deaccented = p.1
  lAndP_mem : ∀ e ∈ wl.lAndP, ∀ item ∈ e.2, ∃ i, (item, i) ∈ wl.byKey
  inv_def : ∀ i < wl.store.length, ∀ j, (getW wl i).inverted = some j →
    j < wl.store.length ∧ (getW wl j).deaccented = invert ((getW wl i).deaccented)
  inv_set : ∀ i < wl.store.length, ∀ j, (getW wl i).inverted = some j →
    (getW wl j).inverted ≠ none

/-- Invariant carried by the search recursion: the grid under construction
has side `L` and row list of length `L`; exactly the ring rows
`p .. L - 1 - p` are filled; filled rows mirror each other (the row at
`L - 1 - k` is the character-reversal, in normalized form, of the row at
`k`); and every filled row's normalized form has length `L`. -/
structure EngineInv (wl : WordsListM) (L p : Nat) (g : SatorG) : Prop where
  glen : g.length = L
  clen : g.content.length = L
  window : ∀ k : Nat, k < L →
    ((∃ i : Nat, g.content[k]? = some (some i)) ↔ (p ≤ k ∧ k < L - p))
  mirror : ∀ k i : Nat, g.content[k]? = some (some i) →
    ∃ j : Nat, g.content[L - 1 - k]? = some (some j) ∧
      (getW wl j).deaccented = invert ((getW wl i).deaccented)
  wlen : ∀ k i : Nat, g.content[k]? = some (some i) → (getW wl i).deaccented.length = L
theorem deaccent_eq_map (w : List Char) : deaccent w = w.map dchar := by
  have hfold : ∀ (ps : List (Char × Char)) (v : List Char),
      ps.foldl (fun acc p => replaceChar p.1 p.2 acc) v
        = v.map (fun c => ps.foldl (fun a p => if a = p.1 then p.2 else a) c) := by
    intro ps
    induction ps with
    | nil => intro v; simp
    | cons p ps ih =>
      intro v
      rw [List.foldl_cons, ih (replaceChar p.1 p.2 v)]
      simp only [replaceChar, List.map_map]
      rfl
  unfold deaccent
  rw [hfold]
  refine List.map_congr_left (fun c _ => ?_)
  by_cases h1 : c = 'á'
  · subst h1; decide
  by_cases h2 : c = 'é'
  · subst h2; decide
  by_cases h3 : c = 'í'
  · subst h3; decide
  by_cases h4 : c = 'ó'
  · subst h4; decide
  by_cases h5 : c = 'ú'
  · subst h5; decide
  by_cases h6 : c = 'ü'
  · subst h6; decide
  by_cases h7 : c = 'î'
  · subst h7; decide
  by_cases h8 : c = 'ö'
  · subst h8; decide
  by_cases h9 : c = 'Á'
  · subst h9; decide
  simp [accPairs, dchar, h1, h2, h3, h4, h5, h6, h7, h8, h9]

theorem dchar_idem (c : Char) : dchar (dchar c) = dchar c := by
  by_cases h1 : c = 'á'
  · subst h1; decide
  by_cases h2 : c = 'é'
  · subst h2; decide
  by_cases h3 : c = 'í'
  · subst h3; decide
  by_cases h4 : c = 'ó'
  · subst h4; decide
  by_cases h5 : c = 'ú'
  · subst h5; decide
  by_cases h6 : c = 'ü'
  · subst h6; decide
  by_cases h7 : c = 'î'
  · subst h7; decide
  by_cases h8 : c = 'ö'
  · subst h8; decide
  by_cases h9 : c = 'Á'
  · subst h9; decide
  have hc : dchar c = c := by
    simp [dchar, h1, h2, h3, h4, h5, h6, h7, h8, h9]
  simp [hc]

theorem deaccent_idem (w : List Char) : deaccent (deaccent w) = deaccent w := by
  simp [deaccent_eq_map, List.map_map, Function.comp_def, dchar_idem]

theorem dchar_fix {c : Char} (h : c ∉ accentedChars) : dchar c = c := by
  simp only [accentedChars, accPairs, List.map, List.mem_cons, List.not_mem_nil] at h
  push_neg at h
  obtain ⟨h1, h2, h3, h4, h5, h6, h7, h8, h9, -⟩ := h
  simp [dchar, h1, h2, h3, h4, h5, h6, h7, h8, h9]

theorem deaccent_fix {w : List Char} (h : ∀ c ∈ w, c ∉ accentedChars) :
    deaccent w = w := by
  rw [deaccent_eq_map]
  calc w.map dchar = w.map id := List.map_congr_left (fun c hc => dchar_fix (h c hc))
    _ = w := List.map_id w

theorem deaccent_length (w : List Char) : (deaccent w).length = w.length := by
  rw [deaccent_eq_map]; exact List.length_map w dchar


/-- C8: the normalizer is idempotent — `deaccent (deaccent s) = deaccent s`
for every string — it maps `"Á"` to `"a"` and leaves `"a"` unchanged, and it
leaves every string containing none of the nine listed accented letters
unchanged. -/
theorem deaccent_idem_and_cases :
    (∀ s : List Char, deaccent (deaccent s) = deaccent s) ∧
    deaccent (strChars "Á") = strChars "a" ∧
    deaccent (strChars "a") = strChars "a" ∧
    (∀ s : List Char, (∀ c ∈ s, c ∉ accentedChars) → deaccent s = s) :=
  ⟨deaccent_idem, by decide, by decide, fun _ h => deaccent_fix h⟩

/-- Witness for `deaccent_idem_and_cases` at concrete inputs. -/
theorem deaccent_idem_and_cases_witness :
    deaccent (deaccent (strChars "cañón")) = deaccent (strChars "cañón") ∧
    deaccent (strChars "xyz") = strChars "xyz" :=
  ⟨deaccent_idem_and_cases.1 _, deaccent_idem_and_cases.2.2.2 _ (by decide)⟩

/-- C9 counterexample: with target length `0` the `WordsList` filter keeps
`"ab"`, whose normalized form has length `2 ≠ 0` — Python `not length` treats
a zero length like `None` and disables the filter, so the filter does not
select exactly the words of normalized length `0`. -/
theorem lengthFilter_zero_counterexample :
    wordsOfLengthFilter (some 0) [strChars "ab"] = [strChars "ab"] ∧
    (deaccent (strChars "ab")).length ≠ 0 := by decide

/-- C9 (amended): normalization preserves string length, and for every
non-zero target length the `WordsList` filter on raw input strings selects
exactly the (sorted) input words whose normalized form has the target length,
so letter positions computed on normalized forms stay in range for the
original. -/
theorem deaccent_length_filter :
    (∀ s : List Char, (deaccent s).length = s.length) ∧
    (∀ (raws : List (List Char)) (L : Nat) (w : List Char), L ≠ 0 →
      (w ∈ wordsOfLengthFilter (some L) raws ↔
        w ∈ pySorted raws ∧ (deaccent w).length = L)) := by
  refine ⟨deaccent_length, fun raws L w hL => ?_⟩
  simp only [wordsOfLengthFilter, List.mem_filter, Bool.or_eq_true, decide_eq_true_eq]
  constructor
  · rintro ⟨hm, h0 | hlen⟩
    · exact absurd h0 hL
    · exact ⟨hm, by rw [deaccent_length]; exact hlen⟩
  · rintro ⟨hm, hlen⟩
    exact ⟨hm, Or.inr (by rw [deaccent_length] at hlen; exact hlen)⟩

/-- Witness for `deaccent_length_filter` at concrete inputs. -/
theorem deaccent_length_filter_witness :
    (deaccent (strChars "áéî")).length = (strChars "áéî").length ∧
    strChars "ab" ∈ wordsOfLengthFilter (some 2) [strChars "ab"] :=
  ⟨deaccent_length_filter.1 _,
   (deaccent_length_filter.2 [strChars "ab"] 2 (strChars "ab") (by decide)).mpr
     ⟨by decide, by decide⟩⟩

/-- C1, evaluated at the failing input: over the word list `["ab", "ba"]` at
length 2, the generator yields two distinct grids with the same grid-content
key, i.e. equal under the order/duplicate-independent grid equality — the
duplicate is not skipped, because `Sator` defines `__hash__` but no `__eq__`,
so `result in self.results` compares distinct objects by identity and never
matches. -/
theorem generator_yields_content_equal_grids :
    generatorM wlAB 2 0 = some [⟨2, [some 1, some 0]⟩, ⟨2, [some 0, some 1]⟩] ∧
    satorHashKey wlAB ⟨2, [some 1, some 0]⟩ = satorHashKey wlAB ⟨2, [some 0, some 1]⟩ ∧
    (⟨2, [some 1, some 0]⟩ : SatorG) ≠ ⟨2, [some 0, some 1]⟩ := by decide

/-- C2, evaluated on a run in which the first seed's exploration raises: the
`except` handler catches the exception but then itself raises `NameError`
(the name `sator` is unbound in `generator`), which propagates to the caller,
and the remaining seeds are not explored. -/
theorem generator_seed_exception_propagates :
    generatorOnSeedOutcomes [Except.error "RuntimeError: boom", Except.ok [emptySator 2]]
      = Except.error "NameError: name sator is not defined" := rfl


/-- One-step unfolding of `iterSatorForCentral` at `pos = 0`. -/
theorem iterSator_zero_eq (wl : WordsListM) (L nm r : Nat) (g : SatorG) :
    iterSatorForCentral wl L nm 0 r g =
      (match (getW wl r).inverted with
       | none => none
       | some ri =>
         match copyWithWordInPos wl g ri 0 with
         | none => none
         | some newSator => some [newSator]) := rfl

/-- One-step unfolding of `iterSatorForCentral` at `pos = p + 1`. -/
theorem iterSator_succ_eq (wl : WordsListM) (L nm p r : Nat) (g : SatorG) :
    iterSatorForCentral wl L nm (p + 1) r g =
      (match (getW wl r).inverted with
       | none => none
       | some ri =>
         match copyWithWordInPos wl g ri (p + 1) with
         | none => none
         | some newSator => do
           let required ← requiredPattern wl newSator L (p + 1)
           let cands ← wordForLettersInPosition wl required (p + 1) (some L)
           let keep := cands.filter (truthyInverted wl)
           let results ← seqExplore (fun u => iterSatorForCentral wl L nm p u newSator) keep
           if keep.isEmpty && nm ≥ p + 1 then pure (results ++ [newSator])
           else pure results) := rfl

/-- C6 counterexample: the empty word is its own reverse partner (`inverted`
is set), yet placing it raises `AssertionError`: `assert word.inverted` is a
truthiness test and an empty word is falsy (`Word.__len__`), so no placed grid
exists at all. -/
theorem copyWith_empty_partner_counterexample :
    (getW wlEmpty 0).inverted = some 0 ∧
    copyWithWordInPos wlEmpty (emptySator 2) 0 0 = none := by decide

/-- C6 (amended): for every grid `g`, position `pos < length`, and word `w`
whose reverse partner `j` is set and non-empty (so that the truthiness assert
passes), the placement succeeds and satisfies: slot `pos` holds `w`; if
`2 * pos + 1 != length` then slot `length - 1 - pos` holds `j`; and every slot
other than `pos` and `length - 1 - pos` is unchanged (when `2 * pos + 1 ==
length` the two indices coincide, so only slot `pos` is set). -/
theorem copyWithWordInPos_spec (wl : WordsListM) (g : SatorG) (pos w j : Nat)
    (hinv : (getW wl w).inverted = some j)
    (hne : (getW wl j).deaccented ≠ [])
    (hlen : g.content.length = g.length)
    (hpos : pos < g.length) :
    ∃ g₂, copyWithWordInPos wl g w pos = some g₂ ∧
      g₂.length = g.length ∧
      g₂.content[pos]? = some (some w) ∧
      (2 * pos + 1 ≠ g.length → g₂.content[g.length - 1 - pos]? = some (some j)) ∧
      (∀ k, k ≠ pos → k ≠ g.length - 1 - pos → g₂.content[k]? = g.content[k]?) := by
  have hpos' : pos < g.content.length := by rw [hlen]; exact hpos
  have hidx : g.length - 1 - pos = g.length - pos - 1 := by omega
  unfold copyWithWordInPos satorSetItem
  rw [hinv]
  simp only [if_neg hne, if_pos hpos']
  by_cases hc : 2 * pos + 1 = g.length
  · rw [if_neg (by omega : ¬2 * pos + 1 ≠ g.length)]
    refine ⟨_, rfl, rfl, List.getElem?_set_self hpos', fun h => absurd hc h, fun k hk _ => ?_⟩
    exact List.getElem?_set_ne (fun he => hk he.symm)
  · rw [if_pos hc]
    have hb : g.length - pos - 1 < (g.content.set pos (some w)).length := by
      rw [List.length_set, hlen]; omega
    rw [if_pos hb]
    have hmir : g.length - pos - 1 ≠ pos := by omega
    refine ⟨_, rfl, rfl, ?_, fun _ => ?_, fun k hk hk₂ => ?_⟩
    · rw [List.getElem?_set_ne hmir]
      exact List.getElem?_set_self hpos'
    · rw [hidx]
      exact List.getElem?_set_self hb
    · rw [List.getElem?_set_ne (fun he => hk₂ (by omega)),
        List.getElem?_set_ne (fun he => hk he.symm)]

/-- Witness for `copyWithWordInPos_spec`: placing word 0 (`"ab"`, partner 1)
of `wlAB` at position 0 of an empty grid of side 2. -/
theorem copyWithWordInPos_spec_witness :
    ∃ g₂, copyWithWordInPos wlAB (emptySator 2) 0 0 = some g₂ ∧
      g₂.length = (emptySator 2).length ∧
      g₂.content[0]? = some (some 0) ∧
      (2 * 0 + 1 ≠ (emptySator 2).length →
        g₂.content[(emptySator 2).length - 1 - 0]? = some (some 1)) ∧
      (∀ k, k ≠ 0 → k ≠ (emptySator 2).length - 1 - 0 →
        g₂.content[k]? = (emptySator 2).content[k]?) :=
  copyWithWordInPos_spec wlAB (emptySator 2) 0 0 1 (by decide) (by decide) rfl (by decide)

/-- C4: in the recursive step of `iter_sator_for_central`, once the running
word's partner has been placed (giving `gP`): at `pos == 0` the accumulator is
yielded unconditionally; at `pos > 0`, if no candidate for the required
pattern has a truthy reverse partner, the incomplete accumulator is yielded
exactly when `near_miss >= pos`, and otherwise the branch yields nothing. -/
theorem iterSator_step_cases (wl : WordsListM) (L nm pos r ri : Nat) (g gP : SatorG)
    (req : List Char) (cands : List Nat)
    (hinv : (getW wl r).inverted = some ri)
    (hplace : copyWithWordInPos wl g ri pos = some gP) :
    (pos = 0 → iterSatorForCentral wl L nm pos r g = some [gP]) ∧
    (0 < pos →
      requiredPattern wl gP L pos = some req →
      wordForLettersInPosition wl req pos (some L) = some cands →
      cands.filter (truthyInverted wl) = [] →
      iterSatorForCentral wl L nm pos r g = if nm ≥ pos then some [gP] else some []) := by
  constructor
  · rintro rfl
    rw [iterSator_zero_eq]
    simp [hinv, hplace]
  · intro hp hreq hcands hfilter
    obtain ⟨p, rfl⟩ : ∃ p, pos = p + 1 := ⟨pos - 1, by omega⟩
    rw [iterSator_succ_eq]
    have hall : ∀ a ∈ cands, truthyInverted wl a = false := by
      intro a ha
      by_contra hcon
      have hmem : a ∈ List.filter (truthyInverted wl) cands := by
        rw [List.mem_filter]
        exact ⟨ha, by simpa using hcon⟩
      simp [hfilter] at hmem
    by_cases h : nm ≥ p + 1
    · simp [hinv, hplace, hreq, hcands, hfilter, hall, h, seqExplore]
      exact hall
    · simp [hinv, hplace, hreq, hcands, hfilter, hall, h, seqExplore]

/-- Witness for `iterSator_step_cases`: over `["abba"]` at length 4 the first
ring has no candidates, so near-miss 0 yields nothing and near-miss 1 yields
the incomplete grid; and a placement at `pos = 0` is yielded unconditionally. -/
theorem iterSator_step_cases_witness :
    iterSatorForCentral wlAbba 4 0 1 0 (emptySator 4) = some [] ∧
    iterSatorForCentral wlAbba 4 1 1 0 (emptySator 4)
      = some [⟨4, [none, some 0, some 0, none]⟩] ∧
    iterSatorForCentral wlAB 2 0 0 0 (emptySator 2) = some [⟨2, [some 1, some 0]⟩] := by
  refine ⟨?_, ?_, ?_⟩
  · have h := (iterSator_step_cases wlAbba 4 0 1 0 0 (emptySator 4)
      ⟨4, [none, some 0, some 0, none]⟩ (strChars "aa") [] (by decide) (by decide)).2
      (by decide) (by decide) (by decide) (by decide)
    simpa using h
  · have h := (iterSator_step_cases wlAbba 4 1 1 0 0 (emptySator 4)
      ⟨4, [none, some 0, some 0, none]⟩ (strChars "aa") [] (by decide) (by decide)).2
      (by decide) (by decide) (by decide) (by decide)
    simpa using h
  · exact (iterSator_step_cases wlAB 2 0 0 0 1 (emptySator 2) ⟨2, [some 1, some 0]⟩
      [] [] (by decide) (by decide)).1 rfl

/-! ## Association list and store lemmas -/

theorem assocGet_mem {α β : Type} [DecidableEq α] {k : α} {v : β} :
    ∀ {l : List (α × β)}, assocGet k l = some v → (k, v) ∈ l := by
  intro l
  induction l with
  | nil => intro h; simp [assocGet] at h
  | cons p rest ih =>
    intro h
    obtain ⟨k₁, v₁⟩ := p
    by_cases hk : k₁ = k
    · subst hk
      simp [assocGet] at h
      simp [h]
    · rw [assocGet, if_neg hk] at h
      exact List.mem_cons_of_mem _ (ih h)

theorem assocGet_isSome_of_mem {α β : Type} [DecidableEq α] {k : α} {v : β} :
    ∀ {l : List (α × β)}, (k, v) ∈ l → (assocGet k l).isSome := by
  intro l
  induction l with
  | nil => intro h; simp at h
  | cons p rest ih =>
    intro h
    obtain ⟨k₁, v₁⟩ := p
    by_cases hk : k₁ = k
    · simp [assocGet, hk]
    · rw [assocGet, if_neg hk]
      rcases List.mem_cons.mp h with he | hm
      · exact absurd (congrArg Prod.fst he).symm hk
      · exact ih hm

theorem mem_assocSet_self {α β : Type} [DecidableEq α] (k : α) (v : β) :
    ∀ (l : List (α × β)), (k, v) ∈ assocSet k v l := by
  intro l
  induction l with
  | nil => simp [assocSet]
  | cons p rest ih =>
    obtain ⟨k₁, v₁⟩ := p
    by_cases hk : k₁ = k
    · subst hk; simp [assocSet]
    · rw [assocSet, if_neg hk]
      exact List.mem_cons_of_mem _ ih

theorem mem_assocSet {α β : Type} [DecidableEq α] {p : α × β} {k : α} {v : β} :
    ∀ {l : List (α × β)}, p ∈ assocSet k v l → p = (k, v) ∨ p ∈ l := by
  intro l
  induction l with
  | nil => intro h; simpa [assocSet] using h
  | cons q rest ih =>
    intro h
    obtain ⟨k₁, v₁⟩ := q
    by_cases hk : k₁ = k
    · subst hk
      rw [assocSet, if_pos rfl] at h
      rcases List.mem_cons.mp h with he | hm
      · exact Or.inl he
      · exact Or.inr (List.mem_cons_of_mem _ hm)
    · rw [assocSet, if_neg hk] at h
      rcases List.mem_cons.mp h with he | hm
      · exact Or.inr (he ▸ List.mem_cons_self _ _)
      · rcases ih hm with h₁ | h₂
        · exact Or.inl h₁
        · exact Or.inr (List.mem_cons_of_mem _ h₂)

theorem mem_assocSet_of_mem {α β : Type} [DecidableEq α] {p : α × β} {k : α} {v : β}
    (hne : p.1 ≠ k) : ∀ {l : List (α × β)}, p ∈ l → p ∈ assocSet k v l := by
  intro l
  induction l with
  | nil => intro h; simp at h
  | cons q rest ih =>
    intro h
    obtain ⟨k₁, v₁⟩ := q
    rcases List.mem_cons.mp h with he | hm
    · by_cases hk : k₁ = k
      · exact absurd (hk ▸ congrArg Prod.fst he) hne
      · rw [assocSet, if_neg hk]
        exact he ▸ List.mem_cons_self _ _
    · by_cases hk : k₁ = k
      · subst hk
        rw [assocSet, if_pos rfl]
        exact List.mem_cons_of_mem _ hm
      · rw [assocSet, if_neg hk]
        exact List.mem_cons_of_mem _ (ih hm)

theorem registerWord_items {d : List Char} {m : List ((Char × Nat) × List (List Char))} :
    ∀ e ∈ registerWord d m, ∀ item ∈ e.2, item = d ∨ ∃ e₁ ∈ m, item ∈ e₁.2 := by
  rw [registerWord]
  generalize d.enum = ps
  induction ps generalizing m with
  | nil => exact fun e he item hi => Or.inr ⟨e, he, hi⟩
  | cons p ps ih =>
    intro e he item hi
    rw [List.foldl_cons] at he
    rcases ih _ he item hi with h | ⟨e₁, he₁, hi₁⟩
    · exact Or.inl h
    · simp only at he₁
      by_cases hd : d ∈ assocGetD (p.2, p.1) m []
      · rw [if_pos hd] at he₁
        exact Or.inr ⟨e₁, he₁, hi₁⟩
      · rw [if_neg hd] at he₁
        rcases mem_assocSet he₁ with he₂ | hm
        · subst he₂
          simp only at hi₁
          rcases List.mem_append.mp hi₁ with hin | hin
          · unfold assocGetD at hin
            cases hget : assocGet (p.2, p.1) m with
            | none => rw [hget] at hin; simp at hin
            | some items =>
              rw [hget] at hin
              exact Or.inr ⟨((p.2, p.1), items), assocGet_mem hget, hin⟩
          · simp at hin
            exact Or.inl hin
        · exact Or.inr ⟨e₁, hm, hi₁⟩

/-! ## Store access lemmas -/

theorem getD_append_lt {s : List WordData} {wd : WordData} {k : Nat} (h : k < s.length) :
    (s ++ [wd]).getD k defaultWord = s.getD k defaultWord := by
  rw [List.getD_eq_getElem?_getD, List.getD_eq_getElem?_getD, List.getElem?_append, if_pos h]

theorem getD_append_self {s : List WordData} {wd : WordData} :
    (s ++ [wd]).getD s.length defaultWord = wd := by
  rw [List.getD_eq_getElem?_getD, List.getElem?_concat_length]
  rfl

theorem setInvAt_length {s : List WordData} {i j : Nat} :
    (setInvAt s i j).length = s.length := List.length_set s i _

theorem getD_setInvAt_self {s : List WordData} {i j : Nat} (h : i < s.length) :
    (setInvAt s i j).getD i defaultWord =
      { s.getD i defaultWord with inverted := some j } := by
  rw [setInvAt, List.getD_eq_getElem?_getD, List.getElem?_set_self h]
  rfl

theorem getD_setInvAt_ne {s : List WordData} {i j k : Nat} (h : k ≠ i) :
    (setInvAt s i j).getD k defaultWord = s.getD k defaultWord := by
  rw [setInvAt, List.getD_eq_getElem?_getD, List.getElem?_set_ne (fun he => h he.symm),
    List.getD_eq_getElem?_getD]

theorem getD_setInvAt_deacc {s : List WordData} {i j k : Nat} :
    ((setInvAt s i j).getD k defaultWord).deaccented = (s.getD k defaultWord).deaccented := by
  by_cases hk : k = i
  · subst hk
    by_cases hi : k < s.length
    · rw [getD_setInvAt_self hi]
    · rw [setInvAt, List.set_eq_of_length_le (by omega)]
  · rw [getD_setInvAt_ne hk]

theorem getD_setInvAt_orig {s : List WordData} {i j k : Nat} :
    ((setInvAt s i j).getD k defaultWord).original = (s.getD k defaultWord).original := by
  by_cases hk : k = i
  · subst hk
    by_cases hi : k < s.length
    · rw [getD_setInvAt_self hi]
    · rw [setInvAt, List.set_eq_of_length_le (by omega)]
  · rw [getD_setInvAt_ne hk]

/-! ## The `WordsList.setup` invariants -/

theorem wlInv_init (la : Option Nat) : WLInv ⟨la, [], [], []⟩ := by
  refine ⟨?_, ?_, ?_, ?_⟩ <;> intro p hp <;> simp at hp

theorem wlInv_step {wl : WordsListM} (h : WLInv wl) (raw : List Char) :
    WLInv (setupStep wl raw) := by
  obtain ⟨la, os, ob, ol⟩ := wl
  have hbk := h.byKey_mem
  have hlp := h.lAndP_mem
  have hod := h.inv_def
  have hos := h.inv_set
  simp only [getW] at hbk hod hos
  simp only at hbk hlp hod hos
  show WLInv
    ⟨la,
     setupPatch
       (os ++ [⟨raw, deaccent raw,
          if deaccent raw = invert (deaccent raw) then some os.length else none⟩])
       (assocSet (deaccent raw) os.length ob) (deaccent raw) os.length,
     assocSet (deaccent raw) os.length ob,
     registerWord (deaccent raw) ol⟩
  set d := deaccent raw with hd
  set i := os.length with hi
  set wd : WordData := ⟨raw, d, if d = invert d then some i else none⟩ with hwd
  set store₁ := os ++ [wd] with hstore₁
  set byKey₁ := assocSet d i ob with hbyKey₁
  set store₂ := setupPatch store₁ byKey₁ d i with hstore₂
  set lAndP₁ := registerWord d ol with hlAndP₁
  have hlen₁ : store₁.length = i + 1 := by simp [hstore₁, hi]
  have hilt : i < store₁.length := by omega
  have hg₁lt : ∀ k, k < i → store₁.getD k defaultWord = os.getD k defaultWord := by
    intro k hk
    exact getD_append_lt (by omega)
  have hg₁self : store₁.getD i defaultWord = wd := getD_append_self
  -- the primary map invariant, relative to store₁
  have hkey₁ : ∀ p ∈ byKey₁, p.2 < store₁.length ∧
      (store₁.getD p.2 defaultWord).deaccented = p.1 := by
    intro p hp
    rcases mem_assocSet hp with rfl | hp₁
    · exact ⟨hilt, by rw [hg₁self]⟩
    · obtain ⟨h₁, h₂⟩ := hbk p hp₁
      exact ⟨by omega, by rw [hg₁lt _ h₁]; exact h₂⟩
  -- characterize the partner patch
  have hpatch :
      store₂ = store₁ ∨
      ∃ j, j < store₁.length ∧
        (store₁.getD j defaultWord).deaccented = invert d ∧
        (store₁.getD j defaultWord).deaccented ≠ [] ∧
        ((store₂ = setInvAt store₁ i j ∧
            (j = i ∨ (store₁.getD j defaultWord).inverted ≠ none)) ∨
         (j ≠ i ∧ (store₁.getD j defaultWord).inverted = none ∧
            store₂ = setInvAt (setInvAt store₁ i j) j i)) := by
    rcases hj : assocGet (invert d) byKey₁ with _ | j
    · left
      rw [hstore₂]
      simp only [setupPatch, hj]
    · obtain ⟨hjlt, hjd⟩ := hkey₁ _ (assocGet_mem hj)
      dsimp only at hjlt hjd
      by_cases hemp : (store₁.getD j defaultWord).deaccented = []
      · left
        rw [hstore₂]
        simp only [setupPatch, hj, if_pos hemp]
      · refine Or.inr ⟨j, hjlt, hjd, hemp, ?_⟩
        by_cases hji : j = i
        · subst hji
          have hcondne : ¬((setInvAt store₁ i i).getD i defaultWord).inverted = none := by
            rw [getD_setInvAt_self hilt]
            exact fun hx => Option.noConfusion hx
          refine Or.inl ⟨?_, Or.inl rfl⟩
          rw [hstore₂]
          simp only [setupPatch, hj, if_neg hemp, if_neg hcondne]
        · have hsj : ((setInvAt store₁ i j).getD j defaultWord).inverted =
              (store₁.getD j defaultWord).inverted := by
            rw [getD_setInvAt_ne hji]
          by_cases hnone : (store₁.getD j defaultWord).inverted = none
          · refine Or.inr ⟨hji, hnone, ?_⟩
            rw [hstore₂]
            have hc : ((setInvAt store₁ i j).getD j defaultWord).inverted = none := by
              rw [hsj]; exact hnone
            simp only [setupPatch, hj, if_neg hemp, if_pos hc]
          · refine Or.inl ⟨?_, Or.inr hnone⟩
            rw [hstore₂]
            have hc : ¬((setInvAt store₁ i j).getD j defaultWord).inverted = none := by
              rw [hsj]; exact hnone
            simp only [setupPatch, hj, if_neg hemp, if_neg hc]
  -- length and deaccented forms are untouched by the patch
  have hlen₂ : store₂.length = i + 1 := by
    rcases hpatch with he | ⟨j, _, _, _, ⟨he, _⟩ | ⟨_, _, he⟩⟩ <;>
      rw [he] <;> simp [setInvAt_length, hlen₁]
  have hdeacc₂ : ∀ k, (store₂.getD k defaultWord).deaccented =
      (store₁.getD k defaultWord).deaccented := by
    intro k
    rcases hpatch with he | ⟨j, _, _, _, ⟨he, _⟩ | ⟨_, _, he⟩⟩ <;> rw [he]
    · rw [getD_setInvAt_deacc]
    · rw [getD_setInvAt_deacc, getD_setInvAt_deacc]
  -- inverted is monotone: the patch never erases a partner
  have hmono : ∀ k, (store₁.getD k defaultWord).inverted ≠ none →
      (store₂.getD k defaultWord).inverted ≠ none := by
    intro k hk
    rcases hpatch with he | ⟨j, hjlt, _, _, ⟨he, _⟩ | ⟨hji, _, he⟩⟩ <;> rw [he]
    · exact hk
    · by_cases hki : k = i
      · subst hki
        rw [getD_setInvAt_self hilt]
        exact fun he₂ => Option.noConfusion he₂
      · rw [getD_setInvAt_ne hki]
        exact hk
    · by_cases hkj : k = j
      · subst hkj
        rw [getD_setInvAt_self (by rw [setInvAt_length]; exact hjlt)]
        exact fun he₂ => Option.noConfusion he₂
      · rw [getD_setInvAt_ne hkj]
        by_cases hki : k = i
        · subst hki
          rw [getD_setInvAt_self hilt]
          exact fun he₂ => Option.noConfusion he₂
        · rw [getD_setInvAt_ne hki]
          exact hk
  refine ⟨?_, ?_, ?_, ?_⟩
  · -- byKey_mem
    intro p hp
    simp only [getW]
    simp only at hp ⊢
    obtain ⟨h₁, h₂⟩ := hkey₁ p hp
    refine ⟨by omega, ?_⟩
    rw [hdeacc₂]
    exact h₂
  · -- lAndP_mem
    intro e he item hitem
    simp only at he hitem ⊢
    rcases registerWord_items e he item hitem with rfl | ⟨e₁, he₁, hi₁⟩
    · exact ⟨i, mem_assocSet_self _ _ _⟩
    · obtain ⟨i₂, hmem⟩ := hlp e₁ he₁ item hi₁
      by_cases hid : item = d
      · subst hid
        exact ⟨i, mem_assocSet_self _ _ _⟩
      · exact ⟨i₂, mem_assocSet_of_mem hid hmem⟩
  · -- inv_def
    intro k hk m hm
    simp only [getW] at hm ⊢
    simp only at hk hm ⊢
    have hk₂ : k < i + 1 := by omega
    have huntouched : (store₂.getD k defaultWord).inverted =
          (store₁.getD k defaultWord).inverted →
        m < store₂.length ∧ (store₂.getD m defaultWord).deaccented =
          invert ((store₂.getD k defaultWord).deaccented) := by
      intro hsame
      rw [hsame] at hm
      rcases Nat.lt_or_ge k i with hki | hki
      · rw [hg₁lt _ hki] at hm
        obtain ⟨hm₁, hm₂⟩ := hod k (by omega) m hm
        refine ⟨by omega, ?_⟩
        simp only [hdeacc₂]
        rw [hg₁lt _ hki, hg₁lt _ (by omega)]
        exact hm₂
      · have hki₂ : k = i := by omega
        subst hki₂
        rw [hg₁self] at hm
        by_cases hpal : d = invert d
        · rw [hwd] at hm
          simp only [if_pos hpal] at hm
          cases hm
          refine ⟨by omega, ?_⟩
          simp only [hdeacc₂]
          rw [hg₁self]
          show d = invert d
          exact hpal
        · rw [hwd] at hm
          simp only [if_neg hpal] at hm
          cases hm
    rcases hpatch with he | ⟨j, hjlt, hjd, _, ⟨he, _⟩ | ⟨hji, _, he⟩⟩
    · exact huntouched (by rw [he])
    · -- single patch: word i points to j
      by_cases hki : k = i
      · subst hki
        have hIk : (store₂.getD i defaultWord).inverted = some j := by
          rw [he, getD_setInvAt_self hilt]
        rw [hIk] at hm
        cases hm
        refine ⟨by omega, ?_⟩
        simp only [hdeacc₂]
        rw [hjd, hg₁self]
      · exact huntouched (by rw [he, getD_setInvAt_ne hki])
    · -- double patch: i points to j and j points back to i
      by_cases hkj : k = j
      · subst hkj
        have hIk : (store₂.getD k defaultWord).inverted = some i := by
          rw [he, getD_setInvAt_self (by rw [setInvAt_length]; exact hjlt)]
        rw [hIk] at hm
        cases hm
        refine ⟨by omega, ?_⟩
        simp only [hdeacc₂]
        rw [hjd, hg₁self]
        show d = invert (invert d)
        simp only [invert, List.reverse_reverse]
      · by_cases hki : k = i
        · subst hki
          have hIk : (store₂.getD i defaultWord).inverted = some j := by
            rw [he, getD_setInvAt_ne (fun hx => hji hx.symm), getD_setInvAt_self hilt]
          rw [hIk] at hm
          cases hm
          refine ⟨by omega, ?_⟩
          simp only [hdeacc₂]
          rw [hjd, hg₁self]
        · exact huntouched (by rw [he, getD_setInvAt_ne hkj, getD_setInvAt_ne hki])
  · -- inv_set
    intro k hk m hm
    simp only [getW] at hm ⊢
    simp only at hk hm ⊢
    have hk₂ : k < i + 1 := by omega
    have huntouched : (store₂.getD k defaultWord).inverted =
          (store₁.getD k defaultWord).inverted →
        (store₂.getD m defaultWord).inverted ≠ none := by
      intro hsame
      rw [hsame] at hm
      rcases Nat.lt_or_ge k i with hki | hki
      · rw [hg₁lt _ hki] at hm
        have hm₁ := (hod k (by omega) m hm).1
        refine hmono m ?_
        rw [hg₁lt _ (by omega)]
        exact hos k (by omega) m hm
      · have hki₂ : k = i := by omega
        subst hki₂
        rw [hg₁self] at hm
        by_cases hpal : d = invert d
        · rw [hwd] at hm
          simp only [if_pos hpal] at hm
          cases hm
          refine hmono i ?_
          rw [hg₁self, hwd]
          simp [if_pos hpal]
        · rw [hwd] at hm
          simp only [if_neg hpal] at hm
          cases hm
    rcases hpatch with he | ⟨j, hjlt, hjd, _, ⟨he, hcond⟩ | ⟨hji, _, he⟩⟩
    · exact huntouched (by rw [he])
    · by_cases hki : k = i
      · subst hki
        have hIk : (store₂.getD i defaultWord).inverted = some j := by
          rw [he, getD_setInvAt_self hilt]
        rw [hIk] at hm
        cases hm
        rcases hcond with rfl | hcond
        · rw [he, getD_setInvAt_self hilt]
          exact fun hx => Option.noConfusion hx
        · exact hmono m hcond
      · exact huntouched (by rw [he, getD_setInvAt_ne hki])
    · by_cases hkj : k = j
      · subst hkj
        have hIk : (store₂.getD k defaultWord).inverted = some i := by
          rw [he, getD_setInvAt_self (by rw [setInvAt_length]; exact hjlt)]
        rw [hIk] at hm
        cases hm
        rw [he, getD_setInvAt_ne (fun hx => hji hx.symm), getD_setInvAt_self hilt]
        exact fun hx => Option.noConfusion hx
      · by_cases hki : k = i
        · subst hki
          have hIk : (store₂.getD i defaultWord).inverted = some j := by
            rw [he, getD_setInvAt_ne (fun hx => hji hx.symm), getD_setInvAt_self hilt]
          rw [hIk] at hm
          cases hm
          rw [he, getD_setInvAt_self (by rw [setInvAt_length]; exact hjlt)]
          exact fun hx => Option.noConfusion hx
        · exact huntouched (by rw [he, getD_setInvAt_ne hkj, getD_setInvAt_ne hki])

theorem wlInv_fold {wl : WordsListM} (h : WLInv wl) :
    ∀ raws : List (List Char), WLInv (raws.foldl setupStep wl) := by
  intro raws
  induction raws generalizing wl with
  | nil => exact h
  | cons raw rest ih => exact ih (wlInv_step h raw)

theorem wlInv_mk (raws : List (List Char)) (la : Option Nat) :
    WLInv (mkWordsList raws la) :=
  wlInv_fold (wlInv_init la) _

/-- A word reference with a set partner is a real store index. -/
theorem lt_store_of_inverted {wl : WordsListM} {r ri : Nat}
    (h : (getW wl r).inverted = some ri) : r < wl.store.length := by
  by_contra hge
  have : getW wl r = defaultWord := by
    rw [getW, List.getD_eq_getElem?_getD, List.getElem?_eq_none (by omega)]
    rfl
  rw [this] at h
  exact Option.noConfusion h

/-- C5: after `WordsList.setup`, for every indexed Word `w` whose reverse
partner `p` is non-null: `p`'s reverse partner is also non-null and equals `w`
under normalized-form equality, and the character-reversal of `w`'s normalized
form equals `p`'s normalized form. -/
theorem inverted_partner_symmetry (raws : List (List Char)) (la : Option Nat)
    (i j : Nat) (hi : i < (mkWordsList raws la).store.length)
    (hj : (getW (mkWordsList raws la) i).inverted = some j) :
    ∃ k, (getW (mkWordsList raws la) j).inverted = some k ∧
      (getW (mkWordsList raws la) k).deaccented = (getW (mkWordsList raws la) i).deaccented ∧
      invert ((getW (mkWordsList raws la) i).deaccented) =
        (getW (mkWordsList raws la) j).deaccented := by
  have hw := wlInv_mk raws la
  obtain ⟨hjlt, hjd⟩ := hw.inv_def i hi j hj
  have hjset := hw.inv_set i hi j hj
  cases hk : (getW (mkWordsList raws la) j).inverted with
  | none => exact absurd hk hjset
  | some k =>
    obtain ⟨hklt, hkd⟩ := hw.inv_def j hjlt k hk
    refine ⟨k, rfl, ?_, hjd.symm⟩
    rw [hkd, hjd]
    simp only [invert, List.reverse_reverse]

/-- Witness for `inverted_partner_symmetry` over the word list `["ab", "ba"]`:
word 0 (`"ab"`) has partner 1 (`"ba"`). -/
theorem inverted_partner_symmetry_witness :
    ∃ k, (getW wlAB 1).inverted = some k ∧
      (getW wlAB k).deaccented = (getW wlAB 0).deaccented ∧
      invert ((getW wlAB 0).deaccented) = (getW wlAB 1).deaccented :=
  inverted_partner_symmetry [strChars "ab", strChars "ba"] (some 2) 0 1
    (by decide) (by decide)

/-- Soundness of the inner loop of `word_for_letters_in_position`: every
yielded word's normalized form carries the pattern at `position` and survives
the length filter. -/
theorem wflAux_sound {wl : WordsListM}
    (hkey : ∀ p ∈ wl.byKey, p.2 < wl.store.length ∧ (getW wl p.2).deaccented = p.1)
    (letters : List Char) (position : Nat) (lenArg : Option Nat) :
    ∀ (items : List (List Char)) (ids : List Nat),
      wflAux wl letters position lenArg items = some ids →
      ∀ i ∈ ids,
        ((getW wl i).deaccented.drop position).take letters.length = letters ∧
        (∀ L, lenArg = some L → L ≠ 0 → (getW wl i).deaccented.length = L) := by
  intro items
  induction items with
  | nil =>
    intro ids h i hi
    rw [wflAux] at h
    cases h
    simp at hi
  | cons item rest ih =>
    intro ids h i hi
    rw [wflAux] at h
    by_cases hs : lengthSkip lenArg item
    · rw [if_pos hs] at h
      exact ih ids h i hi
    · rw [if_neg hs] at h
      cases hget : assocGet item wl.byKey with
      | none =>
        rw [hget] at h
        exact Option.noConfusion h
      | some ci =>
        rw [hget] at h
        dsimp only at h
        by_cases hmatch :
            ((getW wl ci).deaccented.drop position).take letters.length = letters
        · rw [if_pos hmatch] at h
          cases hrest : wflAux wl letters position lenArg rest with
          | none => rw [hrest] at h; exact Option.noConfusion h
          | some restIds =>
            rw [hrest] at h
            simp only [Option.map_some'] at h
            cases h
            rcases List.mem_cons.mp hi with rfl | hmem
            · refine ⟨hmatch, fun L hL hL0 => ?_⟩
              subst hL
              have hitem : (getW wl i).deaccented = item := (hkey _ (assocGet_mem hget)).2
              have hlen : item.length = L := by
                by_contra hne
                rw [lengthSkip] at hs
                simp [hL0, hne] at hs
              rw [hitem, hlen]
            · exact ih restIds hrest i hmem
        · rw [if_neg hmatch] at h
          exact ih ids h i hi

/-- Totality of the inner loop: when every indexed form is a key of the
primary map, no `AttributeError` can occur. -/
theorem wflAux_total {wl : WordsListM} (letters : List Char) (position : Nat)
    (lenArg : Option Nat) :
    ∀ items : List (List Char),
      (∀ item ∈ items, (assocGet item wl.byKey).isSome) →
      ∃ ids, wflAux wl letters position lenArg items = some ids := by
  intro items
  induction items with
  | nil => exact fun _ => ⟨[], rfl⟩
  | cons item rest ih =>
    intro hin
    obtain ⟨ids, hids⟩ := ih (fun x hx => hin x (List.mem_cons_of_mem _ hx))
    rw [wflAux]
    by_cases hs : lengthSkip lenArg item
    · rw [if_pos hs]
      exact ⟨ids, hids⟩
    · rw [if_neg hs]
      have hsome := hin item (List.mem_cons_self _ _)
      cases hget : assocGet item wl.byKey with
      | none =>
        rw [hget] at hsome
        simp at hsome
      | some ci =>
        dsimp only
        by_cases hmatch :
            ((getW wl ci).deaccented.drop position).take letters.length = letters
        · rw [if_pos hmatch, hids]
          exact ⟨ci :: ids, rfl⟩
        · rw [if_neg hmatch]
          exact ⟨ids, hids⟩

/-- Totality of `word_for_letters_in_position` over a set-up words list, for
any non-empty pattern. -/
theorem wordForLetters_total {wl : WordsListM} (hw : WLInv wl)
    (letters : List Char) (position : Nat) (lenArg : Option Nat)
    (hne : letters ≠ []) :
    ∃ ids, wordForLettersInPosition wl letters position lenArg = some ids := by
  cases letters with
  | nil => exact absurd rfl hne
  | cons l₀ lrest =>
    rw [wordForLettersInPosition]
    refine wflAux_total _ _ _ _ ?_
    intro item hitem
    rw [assocGetD] at hitem
    cases hget : assocGet (l₀, position) wl.lAndP with
    | none => rw [hget] at hitem; simp at hitem
    | some items =>
      rw [hget] at hitem
      obtain ⟨i, hmem⟩ := hw.lAndP_mem _ (assocGet_mem hget) item hitem
      exact assocGet_isSome_of_mem hmem

/-- C7: every Word yielded by `wordsMatchingAt(pattern, position, length)` —
for any non-empty pattern — has a normalized form whose substring starting at
`position` of length `len(pattern)` equals the pattern exactly, and, when the
optional length argument is given and non-zero, has normalized length equal to
that argument. -/
theorem wordsMatchingAt_sound (raws : List (List Char)) (la : Option Nat)
    (letters : List Char) (position : Nat) (lenArg : Option Nat) (ids : List Nat)
    (hne : letters ≠ [])
    (h : wordForLettersInPosition (mkWordsList raws la) letters position lenArg = some ids) :
    ∀ i ∈ ids,
      ((getW (mkWordsList raws la) i).deaccented.drop position).take letters.length
        = letters ∧
      (∀ L, lenArg = some L → L ≠ 0 →
        (getW (mkWordsList raws la) i).deaccented.length = L) := by
  have hw := wlInv_mk raws la
  cases letters with
  | nil => exact absurd rfl hne
  | cons l₀ lrest =>
    rw [wordForLettersInPosition] at h
    exact wflAux_sound hw.byKey_mem _ _ _ _ _ h

/-- Witness for `wordsMatchingAt_sound`: querying the classical five-word list
for pattern `"e"` at position 2 with length 5 yields `arepo` (word 0), whose
normalized form has an `"e"` at index 2 and length 5. -/
theorem wordsMatchingAt_sound_witness :
    ((getW wlSator 0).deaccented.drop 2).take (strChars "e").length = strChars "e" ∧
    (∀ L, some 5 = some L → L ≠ 0 → (getW wlSator 0).deaccented.length = L) :=
  wordsMatchingAt_sound
    [strChars "sator", strChars "arepo", strChars "tenet", strChars "opera",
     strChars "rotas"]
    (some 5) (strChars "e") 2 (some 5) [0, 1] (by decide) (by decide) 0 (by decide)

/-- A mirrored placement (`content[pos] = word; content[length-pos-1] =
word.inverted`) preserves the engine invariant, narrowing the window by one
ring. -/
theorem engineInv_update {wl : WordsListM} {L pos : Nat} {g : SatorG}
    (hg : EngineInv wl L (pos + 1) g) (ri j : Nat)
    (h2p : 2 * pos + 1 ≤ L) (hnc : 2 * pos + 1 ≠ L)
    (hril : (getW wl ri).deaccented.length = L)
    (hjd : (getW wl j).deaccented = invert ((getW wl ri).deaccented)) :
    EngineInv wl L pos
      ⟨g.length, (g.content.set pos (some ri)).set (g.length - pos - 1) (some j)⟩ := by
  obtain ⟨hglen, hclen, hwin, hmir, hwl⟩ := hg
  have hposL : pos < L := by omega
  have hmirIdx : g.length - pos - 1 = L - pos - 1 := by rw [hglen]
  have hne : L - pos - 1 ≠ pos := by omega
  have hlt₁ : pos < g.content.length := by omega
  have hlt₂ : L - pos - 1 < (g.content.set pos (some ri)).length := by
    rw [List.length_set]; omega
  have hget₂ : ∀ k : Nat,
      ((g.content.set pos (some ri)).set (g.length - pos - 1) (some j))[k]? =
        if k = L - pos - 1 then some (some j)
        else if k = pos then some (some ri)
        else g.content[k]? := by
    intro k
    rw [hmirIdx]
    by_cases hk₁ : k = L - pos - 1
    · subst hk₁
      rw [if_pos rfl]
      exact List.getElem?_set_self hlt₂
    · rw [if_neg hk₁, List.getElem?_set_ne (fun hx => hk₁ hx.symm)]
      by_cases hk₂ : k = pos
      · subst hk₂
        rw [if_pos rfl]
        exact List.getElem?_set_self hlt₁
      · rw [if_neg hk₂, List.getElem?_set_ne (fun hx => hk₂ hx.symm)]
  have hjlen : (getW wl j).deaccented.length = L := by
    rw [hjd, invert, List.length_reverse]
    exact hril
  refine ⟨hglen, by rw [List.length_set, List.length_set]; exact hclen, ?_, ?_, ?_⟩
  · intro k hk
    rw [hget₂ k]
    by_cases hk₁ : k = L - pos - 1
    · rw [if_pos hk₁]
      constructor
      · intro
        omega
      · exact fun _ => ⟨j, rfl⟩
    · rw [if_neg hk₁]
      by_cases hk₂ : k = pos
      · rw [if_pos hk₂]
        constructor
        · intro
          omega
        · exact fun _ => ⟨ri, rfl⟩
      · rw [if_neg hk₂]
        rw [hwin k hk]
        omega
  · intro k i hk
    rw [hget₂ k] at hk
    by_cases hk₁ : k = L - pos - 1
    · rw [if_pos hk₁] at hk
      cases hk
      subst hk₁
      have hidx : L - 1 - (L - pos - 1) = pos := by omega
      rw [hidx, hget₂ pos, if_neg hne.symm, if_pos rfl]
      refine ⟨ri, rfl, ?_⟩
      rw [hjd, invert, invert, List.reverse_reverse]
    · rw [if_neg hk₁] at hk
      by_cases hk₂ : k = pos
      · rw [if_pos hk₂] at hk
        cases hk
        rw [hk₂]
        have hidx : L - 1 - pos = L - pos - 1 := by omega
        rw [hidx, hget₂ _, if_pos rfl]
        exact ⟨j, rfl, hjd⟩
      · rw [if_neg hk₂] at hk
        have hkin : pos + 1 ≤ k ∧ k < L - (pos + 1) := by
          have hkL : k < L := by
            by_contra hge
            rw [List.getElem?_eq_none (by omega)] at hk
            exact Option.noConfusion hk
          exact (hwin k hkL).mp ⟨i, hk⟩
        obtain ⟨j₂, hj₂, hjd₂⟩ := hmir k i hk
        have hno₁ : L - 1 - k ≠ L - pos - 1 := by omega
        have hno₂ : L - 1 - k ≠ pos := by omega
        rw [hget₂ _, if_neg hno₁, if_neg hno₂]
        exact ⟨j₂, hj₂, hjd₂⟩
  · intro k i hk
    rw [hget₂ k] at hk
    by_cases hk₁ : k = L - pos - 1
    · rw [if_pos hk₁] at hk
      cases hk
      exact hjlen
    · rw [if_neg hk₁] at hk
      by_cases hk₂ : k = pos
      · rw [if_pos hk₂] at hk
        cases hk
        exact hril
      · rw [if_neg hk₂] at hk
        exact hwl k i hk

/-- A central placement (`2 * pos + 1 == length`: only `content[pos] = word`)
of a self-reversed word preserves the engine invariant. -/
theorem engineInv_update_center {wl : WordsListM} {L pos : Nat} {g : SatorG}
    (hg : EngineInv wl L (pos + 1) g) (ri : Nat)
    (hc : 2 * pos + 1 = L)
    (hril : (getW wl ri).deaccented.length = L)
    (hpal : (getW wl ri).deaccented = invert ((getW wl ri).deaccented)) :
    EngineInv wl L pos ⟨g.length, g.content.set pos (some ri)⟩ := by
  obtain ⟨hglen, hclen, hwin, hmir, hwl⟩ := hg
  have hposL : pos < L := by omega
  have hlt₁ : pos < g.content.length := by omega
  have hget₂ : ∀ k : Nat, (g.content.set pos (some ri))[k]? =
      if k = pos then some (some ri) else g.content[k]? := by
    intro k
    by_cases hk : k = pos
    · subst hk
      rw [if_pos rfl]
      exact List.getElem?_set_self hlt₁
    · rw [if_neg hk, List.getElem?_set_ne (fun hx => hk hx.symm)]
  refine ⟨hglen, by rw [List.length_set]; exact hclen, ?_, ?_, ?_⟩
  · intro k hk
    rw [hget₂ k]
    by_cases hk₁ : k = pos
    · rw [if_pos hk₁]
      constructor
      · intro
        omega
      · exact fun _ => ⟨ri, rfl⟩
    · rw [if_neg hk₁]
      rw [hwin k hk]
      omega
  · intro k i hk
    rw [hget₂ k] at hk
    by_cases hk₁ : k = pos
    · rw [if_pos hk₁] at hk
      cases hk
      rw [hk₁]
      have hidx : L - 1 - pos = pos := by omega
      rw [hidx, hget₂ pos, if_pos rfl]
      exact ⟨ri, rfl, hpal⟩
    · rw [if_neg hk₁] at hk
      have hkL : k < L := by
        by_contra hge
        rw [List.getElem?_eq_none (by omega)] at hk
        exact Option.noConfusion hk
      have := (hwin k hkL).mp ⟨i, hk⟩
      omega
  · intro k i hk
    rw [hget₂ k] at hk
    by_cases hk₁ : k = pos
    · rw [if_pos hk₁] at hk
      cases hk
      exact hril
    · rw [if_neg hk₁] at hk
      exact hwl k i hk

/-- Reversal is an involution. -/
theorem invert_invert (w : List Char) : invert (invert w) = w := by
  simp [invert]

/-- The bound on ring positions: a position at or below the middle leaves at
least one free column (`2 * pos + 1 <= length`). -/
theorem middlePos_bound {L pos : Nat} (hL : 1 ≤ L) (h : pos ≤ middlePos L) :
    2 * pos + 1 ≤ L := by
  rw [middlePos] at h
  omega

/-- The engine's placement step: placing the partner of a running word with a
set partner succeeds (the truthiness assert passes) and narrows the invariant
window by one ring. -/
theorem engine_place {wl : WordsListM} (hw : WLInv wl) {L pos r ri : Nat} {g : SatorG}
    (hL : 1 ≤ L)
    (hpos : pos ≤ middlePos L)
    (hr : (getW wl r).inverted = some ri)
    (hrlen : (getW wl r).deaccented.length = L)
    (hcentral : 2 * pos + 1 = L →
      (getW wl r).deaccented = invert ((getW wl r).deaccented))
    (hg : EngineInv wl L (pos + 1) g) :
    ∃ g₂, copyWithWordInPos wl g ri pos = some g₂ ∧ EngineInv wl L pos g₂ := by
  have hrlt := lt_store_of_inverted hr
  obtain ⟨hrilt, hrid⟩ := hw.inv_def r hrlt ri hr
  have hriset := hw.inv_set r hrlt ri hr
  cases hj : (getW wl ri).inverted with
  | none => exact absurd hj hriset
  | some j =>
    obtain ⟨hjlt, hjd⟩ := hw.inv_def ri hrilt j hj
    have hrilen : (getW wl ri).deaccented.length = L := by
      rw [hrid, invert, List.length_reverse]
      exact hrlen
    have hjlen : (getW wl j).deaccented.length = L := by
      rw [hjd, invert, List.length_reverse]
      exact hrilen
    have hjne : (getW wl j).deaccented ≠ [] := by
      intro he
      rw [he] at hjlen
      simp at hjlen
      omega
    have h2p : 2 * pos + 1 ≤ L := middlePos_bound hL hpos
    have hposM : pos < L := by
      rw [middlePos] at hpos
      omega
    have hposc : pos < g.content.length := by
      rw [hg.clen]
      exact hposM
    rw [copyWithWordInPos, satorSetItem, hj]
    dsimp only
    rw [if_neg hjne, if_pos hposc]
    by_cases hc : 2 * pos + 1 = g.length
    · rw [if_neg (by omega : ¬2 * pos + 1 ≠ g.length)]
      have hcL : 2 * pos + 1 = L := by rw [← hg.glen]; exact hc
      have hpal : (getW wl ri).deaccented = invert ((getW wl ri).deaccented) := by
        have hp := hcentral hcL
        rw [hrid, invert_invert]
        exact hp.symm
      exact ⟨_, rfl, engineInv_update_center hg ri hcL hrilen hpal⟩
    · rw [if_pos hc]
      have hb : g.length - pos - 1 < (g.content.set pos (some ri)).length := by
        rw [List.length_set, hg.clen, hg.glen]
        omega
      rw [if_pos hb]
      have hcL : 2 * pos + 1 ≠ L := by rw [← hg.glen]; exact hc
      exact ⟨_, rfl, engineInv_update hg ri j (by omega) hcL hrilen hjd⟩

/-- Totality of the `required` join over a list of filled rows whose words are
long enough. -/
theorem joinLettersAt_some {wl : WordsListM} {pos : Nat} :
    ∀ rows : List (Option Nat),
      (∀ x ∈ rows, ∃ i, x = some i ∧ pos - 1 < (getW wl i).deaccented.length) →
      ∃ cs, joinLettersAt wl pos rows = some cs ∧ cs.length = rows.length := by
  intro rows
  induction rows with
  | nil => exact fun _ => ⟨[], rfl, rfl⟩
  | cons x rest ih =>
    intro hx
    obtain ⟨i, rfl, hlen⟩ := hx x (List.mem_cons_self _ _)
    obtain ⟨cs, hcs, hcslen⟩ := ih fun y hy => hx y (List.mem_cons_of_mem _ hy)
    have hget : (getW wl i).deaccented.get? (pos - 1) =
        some ((getW wl i).deaccented.get ⟨pos - 1, hlen⟩) := by
      rw [List.get?_eq_getElem?, List.getElem?_eq_some_iff]
      exact ⟨hlen, rfl⟩
    rw [joinLettersAt, hget]
    dsimp only
    rw [hcs]
    refine ⟨_, rfl, ?_⟩
    simp [hcslen]

/-- The engine's `required` pattern always computes, with length
`L - 2 * pos`, on a grid whose rows `pos .. L-1-pos` are filled with words of
length `L`. -/
theorem engine_required {wl : WordsListM} {L pos : Nat} {g : SatorG}
    (hg : EngineInv wl L pos g) (hp1 : 1 ≤ pos) (hposL : 2 * pos ≤ L) :
    ∃ req, requiredPattern wl g L pos = some req ∧ req.length = L - 2 * pos := by
  have hrows : ∀ x ∈ (g.content.drop pos).take (L - pos - pos),
      ∃ i, x = some i ∧ pos - 1 < (getW wl i).deaccented.length := by
    intro x hx
    obtain ⟨t, ht⟩ := List.mem_iff_getElem?.mp hx
    rw [List.getElem?_take] at ht
    by_cases htn : t < L - pos - pos
    · rw [if_pos htn, List.getElem?_drop] at ht
      have hwin := (hg.window (pos + t) (by omega)).mpr (by omega)
      obtain ⟨i, hi⟩ := hwin
      rw [hi] at ht
      cases ht
      refine ⟨i, rfl, ?_⟩
      rw [hg.wlen (pos + t) i hi]
      omega
    · rw [if_neg htn] at ht
      exact Option.noConfusion ht
  obtain ⟨cs, hcs, hlen⟩ := joinLettersAt_some _ hrows
  refine ⟨cs, ?_, ?_⟩
  · rw [requiredPattern, hcs]
  · rw [hlen, List.length_take, List.length_drop, hg.clen]
    omega

/-- General soundness of `word_for_letters_in_position` over any words list
satisfying the setup invariants. -/
theorem wordForLetters_sound {wl : WordsListM} (hw : WLInv wl)
    {letters : List Char} {position : Nat} {lenArg : Option Nat} {ids : List Nat}
    (h : wordForLettersInPosition wl letters position lenArg = some ids) :
    ∀ i ∈ ids,
      ((getW wl i).deaccented.drop position).take letters.length = letters ∧
      (∀ L, lenArg = some L → L ≠ 0 → (getW wl i).deaccented.length = L) := by
  cases letters with
  | nil =>
    rw [wordForLettersInPosition] at h
    exact Option.noConfusion h
  | cons l₀ lrest =>
    rw [wordForLettersInPosition] at h
    exact wflAux_sound hw.byKey_mem _ _ _ _ _ h

/-- Sequencing the per-candidate explorations succeeds when each exploration
succeeds, and the concatenated yields inherit the per-grid property. -/
theorem seqExplore_some {f : Nat → Option (List SatorG)} {P : SatorG → Prop} :
    ∀ l : List Nat,
      (∀ u ∈ l, ∃ rsU, f u = some rsU ∧ ∀ gg ∈ rsU, P gg) →
      ∃ rs, seqExplore f l = some rs ∧ ∀ gg ∈ rs, P gg := by
  intro l
  induction l with
  | nil => exact fun _ => ⟨[], rfl, by simp⟩
  | cons u rest ih =>
    intro hl
    obtain ⟨rsU, hu, hPU⟩ := hl u (List.mem_cons_self _ _)
    obtain ⟨rs, hrs, hPrs⟩ := ih fun v hv => hl v (List.mem_cons_of_mem _ hv)
    refine ⟨rsU ++ rs, ?_, ?_⟩
    · rw [seqExplore, hu, hrs]
      rfl
    · intro gg hgg
      rcases List.mem_append.mp hgg with hin | hin
      · exact hPU gg hin
      · exact hPrs gg hin

/-- Main safety and shape lemma for `iter_sator_for_central`: over a set-up
words list, with a running word of the target length whose partner is set
(and, at an odd grid's central position, self-symmetrical), on a grid whose
outer rings are already mirror-filled, the exploration never raises, and every
yielded grid is mirror-filled down to some ring `p₂` — with `p₂ = 0` (a
complete grid) unless the near-miss tolerance is at least `p₂`. -/
theorem iterSator_inv {wl : WordsListM} (hw : WLInv wl) {L : Nat} (nm : Nat) (hL : 1 ≤ L) :
    ∀ (pos r : Nat) (g : SatorG),
      pos ≤ middlePos L →
      (∃ ri, (getW wl r).inverted = some ri) →
      (getW wl r).deaccented.length = L →
      (2 * pos + 1 = L → (getW wl r).deaccented = invert ((getW wl r).deaccented)) →
      EngineInv wl L (pos + 1) g →
      ∃ rs, iterSatorForCentral wl L nm pos r g = some rs ∧
        ∀ gg ∈ rs, ∃ p₂, p₂ ≤ pos ∧ (0 < p₂ → nm ≥ p₂) ∧ EngineInv wl L p₂ gg := by
  intro pos
  induction pos with
  | zero =>
    rintro r g hpos ⟨ri, hr⟩ hrlen hcent hg
    obtain ⟨g₂, hpl, hinv₂⟩ := engine_place hw hL hpos hr hrlen hcent hg
    refine ⟨[g₂], ?_, ?_⟩
    · rw [iterSator_zero_eq]
      simp only [hr, hpl]
    · intro gg hgg
      rw [List.mem_singleton] at hgg
      subst hgg
      exact ⟨0, Nat.le_refl 0, fun h => absurd h (by omega), hinv₂⟩
  | succ p ih =>
    rintro r g hpos ⟨ri, hr⟩ hrlen hcent hg
    obtain ⟨g₂, hpl, hinv₂⟩ := engine_place hw hL hpos hr hrlen hcent hg
    have h2p : 2 * (p + 1) + 1 ≤ L := middlePos_bound hL hpos
    obtain ⟨req, hreq, hreqlen⟩ := engine_required hinv₂ (by omega) (by omega)
    have hreqne : req ≠ [] := by
      intro he
      rw [he] at hreqlen
      simp at hreqlen
      omega
    obtain ⟨cands, hcands⟩ := wordForLetters_total hw req (p + 1) (some L) hreqne
    have hsound := wordForLetters_sound hw hcands
    have hkeep : ∀ u ∈ cands.filter (truthyInverted wl),
        ∃ rsU, iterSatorForCentral wl L nm p u g₂ = some rsU ∧
          ∀ gg ∈ rsU, ∃ p₂, p₂ ≤ p ∧ (0 < p₂ → nm ≥ p₂) ∧ EngineInv wl L p₂ gg := by
      intro u hu
      obtain ⟨humem, hutru⟩ := List.mem_filter.mp hu
      have hj₂ : ∃ j₂, (getW wl u).inverted = some j₂ := by
        rw [truthyInverted] at hutru
        cases hju : (getW wl u).inverted with
        | none =>
          rw [hju] at hutru
          simp at hutru
        | some j₂ => exact ⟨j₂, rfl⟩
      have hulen : (getW wl u).deaccented.length = L :=
        (hsound u humem).2 L rfl (by omega)
      exact ih u g₂ (by omega) hj₂ hulen (fun hc => absurd hc (by omega)) hinv₂
    obtain ⟨rs, hrs, hPrs⟩ := seqExplore_some _ hkeep
    refine ⟨if (cands.filter (truthyInverted wl)).isEmpty && nm ≥ p + 1
        then rs ++ [g₂] else rs, ?_, ?_⟩
    · rw [iterSator_succ_eq]
      simp only [hr, hpl]
      simp [hreq, hcands, hrs]
      split <;> rfl
    · intro gg hgg
      split at hgg
      case isTrue hcond =>
        rcases List.mem_append.mp hgg with hin | hin
        · obtain ⟨p₂, hle, hc, hinv⟩ := hPrs gg hin
          exact ⟨p₂, by omega, hc, hinv⟩
        · rw [List.mem_singleton] at hin
          subst hin
          refine ⟨p + 1, Nat.le_refl _, fun _ => ?_, hinv₂⟩
          have := (Bool.and_eq_true _ _ ▸ hcond).2
          exact of_decide_eq_true this
      case isFalse hcond =>
        obtain ⟨p₂, hle, hc, hinv⟩ := hPrs gg hgg
        exact ⟨p₂, by omega, hc, hinv⟩

/-- Seeds enumerated by the generator: partnered words of the target length,
self-symmetrical when the length is odd. -/
theorem generatorSeeds_spec {wl : WordsListM} {L r : Nat}
    (h : r ∈ generatorSeeds wl L) :
    (∃ ri, (getW wl r).inverted = some ri) ∧
    (getW wl r).deaccented.length = L ∧
    (L % 2 ≠ 0 → (getW wl r).deaccented = invert ((getW wl r).deaccented)) := by
  rw [generatorSeeds] at h
  obtain ⟨hmem, hodd⟩ := List.mem_filter.mp h
  rw [iterForLength] at hmem
  obtain ⟨-, hlen⟩ := List.mem_filter.mp hmem
  rw [Bool.and_eq_true] at hlen
  refine ⟨?_, ?_, ?_⟩
  · exact Option.isSome_iff_exists.mp hlen.2
  · exact of_decide_eq_true hlen.1
  · intro hL2
    by_contra hnp
    simp [hL2, hnp] at hodd

/-- The empty grid satisfies the engine invariant with an empty window. -/
theorem engineInv_empty {wl : WordsListM} {L : Nat} :
    EngineInv wl L (middlePos L + 1) (emptySator L) := by
  have hget : ∀ k : Nat, k < L → (emptySator L).content[k]? = some none := by
    intro k hk
    rw [emptySator, List.getElem?_replicate, if_pos hk]
  refine ⟨rfl, by simp [emptySator], ?_, ?_, ?_⟩
  · intro k hk
    rw [hget k hk]
    constructor
    · rintro ⟨i, hi⟩
      cases hi
    · intro hr
      rw [middlePos] at hr
      omega
  · intro k i hk
    by_cases hkL : k < L
    · rw [hget k hkL] at hk
      cases hk
    · rw [emptySator] at hk
      rw [List.getElem?_eq_none (by simp; omega)] at hk
      cases hk
  · intro k i hk
    by_cases hkL : k < L
    · rw [hget k hkL] at hk
      cases hk
    · rw [emptySator] at hk
      rw [List.getElem?_eq_none (by simp; omega)] at hk
      cases hk

/-- Sequencing the per-seed explorations of the generator. -/
theorem generatorRun_some {wl : WordsListM} {L nm : Nat} {P : SatorG → Prop} :
    ∀ seeds : List Nat,
      (∀ s ∈ seeds,
        ∃ a, iterSatorForCentral wl L nm (middlePos L) s (emptySator L) = some a ∧
          ∀ g ∈ a, P g) →
      ∃ out, generatorRun wl L nm seeds = some out ∧ ∀ g ∈ out, P g := by
  intro seeds
  induction seeds with
  | nil => exact fun _ => ⟨[], rfl, by simp⟩
  | cons s rest ih =>
    intro hl
    obtain ⟨a, ha, hPa⟩ := hl s (List.mem_cons_self _ _)
    obtain ⟨out, hout, hPout⟩ := ih fun v hv => hl v (List.mem_cons_of_mem _ hv)
    refine ⟨a ++ out, ?_, ?_⟩
    · rw [generatorRun, ha, hout]
      rfl
    · intro g hg
      rcases List.mem_append.mp hg with hin | hin
      · exact hPa g hin
      · exact hPout g hin

/-- The generator never raises over a set-up words list, and every yielded
grid is mirror-filled down to some ring `p₂` (with `p₂ = 0` unless the
near-miss tolerance allows `p₂`). -/
theorem generatorM_inv {wl : WordsListM} (hw : WLInv wl) {L : Nat} (nm : Nat)
    (hL : 1 ≤ L) :
    ∃ out, generatorM wl L nm = some out ∧
      ∀ g ∈ out, ∃ p₂, p₂ ≤ middlePos L ∧ (0 < p₂ → nm ≥ p₂) ∧
        EngineInv wl L p₂ g := by
  rw [generatorM]
  apply generatorRun_some
  intro s hs
  obtain ⟨⟨ri, hri⟩, hlen, hodd⟩ := generatorSeeds_spec hs
  have hcent : 2 * middlePos L + 1 = L →
      (getW wl s).deaccented = invert ((getW wl s).deaccented) := by
    intro hc
    exact hodd (by omega)
  exact iterSator_inv hw nm hL (middlePos L) s (emptySator L) (Nat.le_refl _)
    ⟨ri, hri⟩ hlen hcent engineInv_empty

/-- C3 counterexample: over the classical five words at length 5 with
near-miss 0, the generator yields the grid with rows
`sator, opera, tenet, arepo, rotas` — all slots are non-null, but reading
column 0 top-to-bottom gives `"sotar"`, which is not the normalized form
`"sator"` of row 0, so the claimed column/row coincidence fails. -/
theorem generator_column_mismatch :
    generatorM wlSator 5 0 =
      some [⟨5, [some 3, some 1, some 4, some 0, some 2]⟩,
            ⟨5, [some 2, some 0, some 4, some 1, some 3]⟩] ∧
    allSlotsFilled ⟨5, [some 3, some 1, some 4, some 0, some 2]⟩ = true ∧
    columnsEqualRows wlSator ⟨5, [some 3, some 1, some 4, some 0, some 2]⟩ = false ∧
    colString wlSator ⟨5, [some 3, some 1, some 4, some 0, some 2]⟩ 0
      = some (strChars "sotar") ∧
    rowDeacc wlSator ⟨5, [some 3, some 1, some 4, some 0, some 2]⟩ 0
      = strChars "sator" := by
  decide

/-- C3 (amended): every grid yielded by the Search Engine with `nearMiss == 0`
has all `N` slots non-null, and satisfies the mirror symmetry that the code
actually enforces: for every `pos`, the word in row `N - 1 - pos` is the
character-reversal (in normalized form) of the word in row `pos`.  The
column-equals-row reading claimed by the specification does not hold in
general (see the counterexample). -/
theorem generator_grids_filled_mirrored (raws : List (List Char)) (la : Option Nat)
    (L : Nat) (hL : 1 ≤ L) (out : List SatorG)
    (hout : generatorM (mkWordsList raws la) L 0 = some out) :
    ∀ g ∈ out,
      (∀ k, k < L → ∃ i, g.content[k]? = some (some i)) ∧
      (∀ k i, g.content[k]? = some (some i) →
        ∃ j, g.content[L - 1 - k]? = some (some j) ∧
          (getW (mkWordsList raws la) j).deaccented =
            invert ((getW (mkWordsList raws la) i).deaccented)) := by
  obtain ⟨out₂, hout₂, hP⟩ := generatorM_inv (wlInv_mk raws la) 0 hL
  rw [hout] at hout₂
  cases hout₂
  intro g hg
  obtain ⟨p₂, hle, hc, hinv⟩ := hP g hg
  have hp0 : p₂ = 0 := by
    by_contra hne
    have := hc (by omega)
    omega
  subst hp0
  refine ⟨?_, hinv.mirror⟩
  intro k hk
  exact (hinv.window k hk).mpr (by omega)

/-- Witness for `generator_grids_filled_mirrored` at the first grid yielded
over the classical five words. -/
theorem generator_grids_filled_mirrored_witness :
    (∀ k, k < 5 →
      ∃ i, (⟨5, [some 3, some 1, some 4, some 0, some 2]⟩ : SatorG).content[k]?
        = some (some i)) ∧
    (∀ k i, (⟨5, [some 3, some 1, some 4, some 0, some 2]⟩ : SatorG).content[k]?
        = some (some i) →
      ∃ j, (⟨5, [some 3, some 1, some 4, some 0, some 2]⟩ : SatorG).content[5 - 1 - k]?
          = some (some j) ∧
        (getW wlSator j).deaccented = invert ((getW wlSator i).deaccented)) :=
  generator_grids_filled_mirrored
    [strChars "sator", strChars "arepo", strChars "tenet", strChars "opera",
     strChars "rotas"]
    (some 5) 5 (by decide)
    [⟨5, [some 3, some 1, some 4, some 0, some 2]⟩,
     ⟨5, [some 2, some 0, some 4, some 1, some 3]⟩]
    (by decide) _ (List.mem_cons_self _ _)

/-- Auxiliary concrete engine state: the classical grid after only the center
row `tenet` is placed. -/
theorem engineInv_mid_tenet :
    EngineInv wlSator 5 2 ⟨5, [none, none, some 4, none, none]⟩ := by
  obtain ⟨g₂, hpl, hinv⟩ :=
    engine_place
      (wlInv_mk
        [strChars "sator", strChars "arepo", strChars "tenet", strChars "opera",
         strChars "rotas"] (some 5))
      (by decide) (by decide : (2 : Nat) ≤ middlePos 5)
      (by decide : (getW wlSator 4).inverted = some 4) (by decide)
      (fun _ => by decide) engineInv_empty
  have h₂ : copyWithWordInPos wlSator (emptySator 5) 4 2 =
      some ⟨5, [none, none, some 4, none, none]⟩ := by decide
  have he : g₂ = ⟨5, [none, none, some 4, none, none]⟩ :=
    Option.some.inj (hpl.symm.trans h₂)
  rw [← he]
  exact hinv

/-- C10: `word_for_letters_in_position` accesses `letters[0]` unconditionally,
so the empty pattern raises; for a non-empty pattern over a set-up words list
it never raises; the engine's `required` pattern at ring `pos`
(`1 <= pos <= middlePos`) has length `L - 2 * pos >= 1`, hence is non-empty;
and consequently the whole generator never raises for a positive target
length. -/
theorem pattern_nonempty_safety :
    (∀ (wl : WordsListM) (p : Nat) (la : Option Nat),
      wordForLettersInPosition wl [] p la = none) ∧
    (∀ (raws : List (List Char)) (la : Option Nat) (letters : List Char)
        (position : Nat) (lenArg : Option Nat), letters ≠ [] →
      ∃ ids, wordForLettersInPosition (mkWordsList raws la) letters position lenArg
        = some ids) ∧
    (∀ (wl : WordsListM) (L pos : Nat) (g : SatorG), EngineInv wl L pos g →
      1 ≤ pos → pos ≤ middlePos L → 1 ≤ L →
      ∃ req, requiredPattern wl g L pos = some req ∧
        req.length = L - 2 * pos ∧ req ≠ []) ∧
    (∀ (raws : List (List Char)) (la : Option Nat) (L nm : Nat), 1 ≤ L →
      ∃ out, generatorM (mkWordsList raws la) L nm = some out) := by
  refine ⟨fun _ _ _ => rfl, ?_, ?_, ?_⟩
  · intro raws la letters position lenArg hne
    exact wordForLetters_total (wlInv_mk raws la) letters position lenArg hne
  · intro wl L pos g hg hp1 hpos hL
    have h2p := middlePos_bound hL hpos
    obtain ⟨req, hreq, hlen⟩ := engine_required hg hp1 (by omega)
    refine ⟨req, hreq, hlen, ?_⟩
    intro he
    rw [he] at hlen
    simp at hlen
    omega
  · intro raws la L nm hL
    obtain ⟨out, hout, -⟩ := generatorM_inv (wlInv_mk raws la) nm hL
    exact ⟨out, hout⟩

/-- Witness for `pattern_nonempty_safety` over the classical five-word list:
the empty pattern raises, the pattern `"e"` at position 2 does not, the
`required` pattern after placing `tenet` is non-empty, and the whole
generation run raises nothing. -/
theorem pattern_nonempty_safety_witness :
    wordForLettersInPosition wlSator [] 2 (some 5) = none ∧
    (∃ ids, wordForLettersInPosition wlSator (strChars "e") 2 (some 5) = some ids) ∧
    (∃ req, requiredPattern wlSator ⟨5, [none, none, some 4, none, none]⟩ 5 2
      = some req ∧ req.length = 5 - 2 * 2 ∧ req ≠ []) ∧
    (∃ out, generatorM wlSator 5 0 = some out) :=
  ⟨pattern_nonempty_safety.1 wlSator 2 (some 5),
   pattern_nonempty_safety.2.1
     [strChars "sator", strChars "arepo", strChars "tenet", strChars "opera",
      strChars "rotas"]
     (some 5) (strChars "e") 2 (some 5) (by decide),
   pattern_nonempty_safety.2.2.1 wlSator 5 2 ⟨5, [none, none, some 4, none, none]⟩
     engineInv_mid_tenet (by decide) (by decide) (by decide),
   pattern_nonempty_safety.2.2.2
     [strChars "sator", strChars "arepo", strChars "tenet", strChars "opera",
      strChars "rotas"]
     (some 5) 5 0 (by decide)⟩
